import Mathlib

/-!
Verification of the graph_builder library (src/lib.rs): the graph generation
algorithm `gen` and the edge symmetrizer `bidir`, shallowly embedded in Lean.

Modelling conventions:
* Rust `Graph<T, U> = (Vec<T>, Vec<([usize; 2], U)>)` becomes a pair of lists,
  an edge being `((from, to), label)` over `Nat` indices.
* The `HashMap<T, usize>` node index (`has`) and the `HashSet<[usize; 2]>`
  (`has_edge`) are modelled as functions `T → Option Nat` and
  `Nat × Nat → Bool`; the Rust code only uses insert/get/contains on them,
  so the map interface is all that matters.
* `Result<A, E>` becomes `Except E A`; the `E: From<GenerateError>` bound
  becomes an explicit conversion function `fromGE`.
* The two `while` loops that grow the vector they walk are written with an
  explicit fuel argument large enough to cover every iteration the Rust loop
  can perform; all invariant theorems below are proved for every fuel, so no
  sufficiency argument is needed for them.
* `Vec` indexing `v[i]` is modelled with `l[i]?`; where Rust would panic on an
  out-of-range index (the compaction lookups `map_nodes[a]`), the embedding
  drops the edge instead.  The index-safety theorem (claim C10) shows that
  under the documented seed validity precondition every such access is in
  range, so the totalization is never exercised.
-/

namespace GraphBuilder

/-- An edge is a directed pair of node indices plus a label
(Rust `([usize; 2], U)`). -/
abbrev Edge (U : Type) : Type := (Nat × Nat) × U

/-- A graph is a pair of nodes and edges between nodes
(Rust `type Graph<T, U> = (Vec<T>, Vec<([usize; 2], U)>)`). -/
abbrev Graph (T U : Type) : Type := List T × List (Edge U)

/-- Settings for generating a graph (Rust struct `GenerateSettings`). -/
structure GenerateSettings where
  max_nodes : Nat
  max_edges : Nat

/-- A graph generating error (Rust enum `GenerateError`). -/
inductive GenerateError where
  | MaxNodes : GenerateError
  | MaxEdges : GenerateError

/-- State of the expansion phase of `gen`: the growing node and edge lists,
the first-error slot, the node dedup map (Rust `has`) and the edge pair set
(Rust `has_edge`). -/
structure ExpState (T U E : Type) where
  nodes : List T
  edges : List (Edge U)
  error : Option E
  has : T → Option Nat
  hasEdge : Nat × Nat → Bool

/-- The node-dedup step of a successful expansion (Rust lib.rs lines 133-139):
look the candidate node up in `has`; if absent, insert it with the next index
and append it to the node list.  Returns the id together with the updated node
list and map. -/
def expandInsert {T U E : Type} [DecidableEq T] (s : ExpState T U E) (newNode : T) :
    Nat × List T × (T → Option Nat) :=
  match s.has newNode with
  | some id => (id, s.nodes, s.has)
  | none =>
    (s.nodes.length, s.nodes ++ [newNode],
      fun y => if y = newNode then some s.nodes.length else s.has y)

/-- One successful expansion outcome (Rust lib.rs lines 132-153): dedup the
candidate node, record the edge `[i, id]`, then check the two ceilings; the
returned Bool is true when the Rust code executes `break 'outer`.  A ceiling
hit records the corresponding error only when no error is present yet. -/
def expandOkStep {T U E : Type} [DecidableEq T] (st : GenerateSettings)
    (fromGE : GenerateError → E) (i : Nat) (s : ExpState T U E)
    (newNode : T) (newEdge : U) : ExpState T U E × Bool :=
  let t := expandInsert s newNode
  let nodes2 := t.2.1
  let edges2 := s.edges ++ [((i, t.1), newEdge)]
  let hasEdge2 := fun q => if q = (i, t.1) then true else s.hasEdge q
  if st.max_nodes ≤ nodes2.length then
    (⟨nodes2, edges2, some (s.error.getD (fromGE GenerateError.MaxNodes)), t.2.2, hasEdge2⟩, true)
  else if st.max_edges ≤ edges2.length then
    (⟨nodes2, edges2, some (s.error.getD (fromGE GenerateError.MaxEdges)), t.2.2, hasEdge2⟩, true)
  else
    (⟨nodes2, edges2, s.error, t.2.2, hasEdge2⟩, false)

/-- The inner `for j in 0..n` loop of the expansion phase for the node at
index `i` (Rust lib.rs lines 130-159), over the remaining step list.  On an
`expand` failure the Rust code executes `error = Some(err)` with no
`is_none` guard, so the error slot is overwritten unconditionally.  The Bool
is true when `break 'outer` was executed. -/
def expandSteps {T U E : Type} [DecidableEq T] (f : T → Nat → Except E (T × U))
    (st : GenerateSettings) (fromGE : GenerateError → E) (i : Nat) :
    List Nat → ExpState T U E → ExpState T U E × Bool
  | [], s => (s, false)
  | j :: js, s =>
    match s.nodes[i]? with
    | none => (s, false)
    | some node =>
      match f node j with
      | Except.error err =>
        expandSteps f st fromGE i js ⟨s.nodes, s.edges, some err, s.has, s.hasEdge⟩
      | Except.ok nn =>
        let r := expandOkStep st fromGE i s nn.1 nn.2
        if r.2 then r else expandSteps f st fromGE i js r.1

/-- The outer `'outer: while i < nodes.len()` worklist loop of the expansion
phase (Rust lib.rs lines 129-161), with explicit fuel. -/
def expandLoop {T U E : Type} [DecidableEq T] (f : T → Nat → Except E (T × U))
    (n : Nat) (st : GenerateSettings) (fromGE : GenerateError → E) :
    Nat → Nat → ExpState T U E → ExpState T U E
  | 0, _, s => s
  | fuel + 1, i, s =>
    if i < s.nodes.length then
      let r := expandSteps f st fromGE i (List.range n) s
      if r.2 then r.1 else expandLoop f n st fromGE fuel (i + 1) r.1
    else s

/-- State of the composition phase of `gen`: the growing edge list, the edge
pair set and the first-error slot. -/
structure CompState (U E : Type) where
  edges : List (Edge U)
  hasEdge : Nat × Nat → Bool
  error : Option E

/-- The inner `for k in 0..edges_count` scan of the composition phase
(Rust lib.rs lines 174-192) for a removed-target edge `a → b` with label
`labJ`, over the snapshot of the edges present when the phase began.  A
reportable compose failure is recorded only when no error is present yet. -/
def composeScan {U E : Type} (h : U → U → Except (Option E) U) (a b : Nat) (labJ : U) :
    List (Edge U) → CompState U E → CompState U E
  | [], s => s
  | e :: rest, s =>
    if e.1.1 = b ∧ s.hasEdge (a, e.1.2) = false then
      match h labJ e.2 with
      | Except.ok newLab =>
        composeScan h a b labJ rest
          ⟨s.edges ++ [((a, e.1.2), newLab)],
           fun q => if q = (a, e.1.2) then true else s.hasEdge q, s.error⟩
      | Except.error none => composeScan h a b labJ rest s
      | Except.error (some err) =>
        composeScan h a b labJ rest ⟨s.edges, s.hasEdge, some (s.error.getD err)⟩
    else composeScan h a b labJ rest s

/-- The outer `while j < edges.len()` loop of the composition phase
(Rust lib.rs lines 169-195), with explicit fuel; `removed` is the set of
filtered-out node indices, `snap` the snapshot of the edge list at phase
start (`edges_count` in the Rust code). -/
def composeLoop {U E : Type} (h : U → U → Except (Option E) U)
    (removed : Nat → Bool) (snap : List (Edge U)) :
    Nat → Nat → CompState U E → CompState U E
  | 0, _, s => s
  | fuel + 1, j, s =>
    match s.edges[j]? with
    | none => s
    | some e =>
      let s2 := if removed e.1.2 = true then composeScan h e.1.1 e.1.2 e.2 snap s else s
      composeLoop h removed snap fuel (j + 1) s2

/-- Membership of a node index in the removal set (Rust lib.rs lines 162-164:
`removed` holds exactly the indices whose node fails the filter `g`). -/
def removedPred {T : Type} (g : T → Bool) (nodes : List T) (i : Nat) : Bool :=
  match nodes[i]? with
  | some x => !(g x)
  | none => false

/-- The compaction renumbering pass (Rust lib.rs lines 197-207): surviving
nodes keep relative order and get consecutive new indices, removed nodes map
to `none`.  Returns the new node list and the `map_nodes` table. -/
def buildMapGo {T : Type} (g : T → Bool) :
    List T → List T → List (Option Nat) → List T × List (Option Nat)
  | [], acc, mp => (acc, mp)
  | x :: xs, acc, mp =>
    if g x = true then buildMapGo g xs (acc ++ [x]) (mp ++ [some acc.length])
    else buildMapGo g xs acc (mp ++ [none])

/-- Rust `Vec::swap_remove(i)`: replace the element at `i` with the last
element and shorten the list by one. -/
def swapRemove {α : Type} (l : List α) (i : Nat) : List α :=
  match l.getLast? with
  | none => l
  | some x => (l.set i x).dropLast

/-- The reverse edge rewriting walk of the compaction phase (Rust lib.rs
lines 208-215): the counter argument `j + 1` examines index `j`; an edge whose
endpoints both survive is rewritten in place, any other edge is removed with
`swap_remove`.  Rust panics when an endpoint is out of range of `map_nodes`;
the embedding removes the edge in that case (see the index-safety theorem). -/
def compactEdges {U : Type} (mp : List (Option Nat)) :
    Nat → List (Edge U) → List (Edge U)
  | 0, edges => edges
  | j + 1, edges =>
    match edges[j]? with
    | none => compactEdges mp j edges
    | some e =>
      match (mp[e.1.1]?).bind id, (mp[e.1.2]?).bind id with
      | some a2, some b2 => compactEdges mp j (edges.set j ((a2, b2), e.2))
      | _, _ => compactEdges mp j (swapRemove edges j)

/-- The expansion-phase state at entry (Rust lib.rs lines 119-127): note that
the seed loop `for n in &nodes { has.insert(n.clone(), 0); }` maps every seed
node to index 0, not to its own index. -/
def initExpState {T U E : Type} [DecidableEq T] (a : Graph T U) : ExpState T U E :=
  ⟨a.1, a.2, none,
   fun y => if y ∈ a.1 then some 0 else none,
   fun q => a.2.any fun e => decide (e.1 = q)⟩

/-- The expansion phase of `gen` run to completion.  The fuel
`a.1.length + st.max_nodes + 1` exceeds the number of iterations the Rust
worklist loop can perform, since the node list never grows past
`max st.max_nodes (a.1.length + 1)` (proved below). -/
def genExpandPhase {T U E : Type} [DecidableEq T] (a : Graph T U) (n : Nat)
    (f : T → Nat → Except E (T × U)) (st : GenerateSettings)
    (fromGE : GenerateError → E) : ExpState T U E :=
  expandLoop f n st fromGE (a.1.length + st.max_nodes + 1) 0 (initExpState a)

/-- The composition phase of `gen` run after the expansion phase.  Each append
inserts its pair into `has_edge` and requires the pair to be absent, so the
edge list grows by at most `snap.length * snap.length` entries and the fuel
is sufficient. -/
def genComposePhase {T U E : Type} [DecidableEq T] (a : Graph T U) (n : Nat)
    (f : T → Nat → Except E (T × U)) (g : T → Bool)
    (h : U → U → Except (Option E) U) (st : GenerateSettings)
    (fromGE : GenerateError → E) : CompState U E :=
  let s1 := genExpandPhase a n f st fromGE
  composeLoop h (removedPred g s1.nodes) s1.edges
    ((s1.edges.length + 1) * (s1.edges.length + 1) + s1.edges.length + 1) 0
    ⟨s1.edges, s1.hasEdge, s1.error⟩

/-- The full `gen` pipeline: the graph it builds (returned in both the `Ok`
and the `Err` case) together with the recorded error, if any. -/
def genPhases {T U E : Type} [DecidableEq T] (a : Graph T U) (n : Nat)
    (f : T → Nat → Except E (T × U)) (g : T → Bool)
    (h : U → U → Except (Option E) U) (st : GenerateSettings)
    (fromGE : GenerateError → E) : Graph T U × Option E :=
  let s1 := genExpandPhase a n f st fromGE
  let s2 := genComposePhase a n f g h st fromGE
  let bm := buildMapGo g s1.nodes [] []
  ((bm.1, compactEdges bm.2 s2.edges.length s2.edges), s2.error)

/-- Rust `pub fn gen` (lib.rs lines 103-222): generate a graph from a seed
`a`, `n` expansion steps per node, expansion rule `f`, filter `g`, composer
`h` and settings; `fromGE` embeds the built-in ceiling errors into `E`. -/
def gen {T U E : Type} [DecidableEq T] (a : Graph T U) (n : Nat)
    (f : T → Nat → Except E (T × U)) (g : T → Bool)
    (h : U → U → Except (Option E) U) (st : GenerateSettings)
    (fromGE : GenerateError → E) : Except (Graph T U × E) (Graph T U) :=
  let r := genPhases a n f g h st fromGE
  match r.2 with
  | some err => Except.error (r.1, err)
  | none => Except.ok r.1

/-- The canonical unordered key of an edge (Rust lib.rs lines 236-239:
`[a.min(b), a.max(b)]`). -/
def canonKey {U : Type} (e : Edge U) : Nat × Nat :=
  (min e.1.1 e.1.2, max e.1.1 e.1.2)

/-- An edge with its endpoint pair canonicalized. -/
def canonEdge {U : Type} (e : Edge U) : Edge U := (canonKey e, e.2)

/-- Lexicographic comparison of the `[usize; 2]` sort keys used by
`edges.sort_by_key(|s| s.0)`. -/
def edgeKeyLe {U : Type} (e1 e2 : Edge U) : Bool :=
  decide (e1.1.1 < e2.1.1 ∨ (e1.1.1 = e2.1.1 ∧ e1.1.2 ≤ e2.1.2))

/-- Stable insertion of an edge into a key-sorted list: the new element goes
in front of the first element it compares `≤` to, hence before later
elements with an equal key. -/
def insertKey {U : Type} (x : Edge U) : List (Edge U) → List (Edge U)
  | [] => [x]
  | y :: ys => if edgeKeyLe x y = true then x :: y :: ys else y :: insertKey x ys

/-- Rust `edges.sort_by_key(|s| s.0)` is a stable sort by the endpoint pair;
a stable sort is extensionally determined by its key order, and is modelled
here by stable insertion sort. -/
def sortByKey {U : Type} : List (Edge U) → List (Edge U)
  | [] => []
  | x :: xs => insertKey x (sortByKey xs)

/-- The backwards pairing scan of `bidir` (Rust lib.rs lines 241-258); the
counter argument `j + 1` examines index `j`, `pair` is the flag of the Rust
code.  Note the `k >= edges.len()` branch keeps `pair` unchanged, exactly as
in the source.  The wildcard branch is unreachable for the lengths `bidir`
uses. -/
def bidirScan {U : Type} [DecidableEq U] :
    Nat → Bool → List (Edge U) → List (Edge U)
  | 0, _, edges => edges
  | j + 1, pair, edges =>
    if pair = true then
      if edges.length ≤ j + 1 then
        bidirScan j true (swapRemove edges j)
      else
        match edges[j]?, edges[j + 1]? with
        | some ej, some ek =>
          if ej = ek then bidirScan j false (swapRemove edges (j + 1))
          else bidirScan j false (swapRemove edges j)
        | _, _ => bidirScan j false edges
    else
      bidirScan j true edges

/-- Rust `pub fn bidir` (lib.rs lines 232-259): canonicalize every endpoint
pair, sort by it, then run the backwards pairing scan over the whole list. -/
def bidir {U : Type} [DecidableEq U] (edges : List (Edge U)) : List (Edge U) :=
  if edges.length = 0 then edges
  else
    let sorted := sortByKey (edges.map canonEdge)
    bidirScan sorted.length false sorted

/-- Index `i` names a node of `ns` that passes the filter `g`. -/
def keptAt {T : Type} (g : T → Bool) (ns : List T) (i : Nat) : Prop :=
  ∃ x, ns[i]? = some x ∧ g x = true

/-- Every edge endpoint is a valid index below `L`. -/
abbrev validEdges {U : Type} (L : Nat) (es : List (Edge U)) : Prop :=
  ∀ e ∈ es, e.1.1 < L ∧ e.1.2 < L

/-- The documented precondition of `bidir`: at most two edges per unordered
endpoint pair. -/
abbrev atMostTwoPerPair {U : Type} (es : List (Edge U)) : Prop :=
  ∀ e ∈ es, es.countP (fun e2 => decide (canonKey e2 = canonKey e)) ≤ 2

/-- The node-count/edge-count invariant of a running expansion state: each
list is still below its ceiling unless it has not changed since the seed
(lengths `n0`, `e0`); the Rust loop breaks as soon as a ceiling check fails,
so only the very first successful expansion can start from an oversized
seed. -/
def expInvariant {T U E : Type} (st : GenerateSettings) (n0 e0 : Nat)
    (s : ExpState T U E) : Prop :=
  (s.nodes.length < st.max_nodes ∨ s.nodes.length = n0) ∧
  (s.edges.length < st.max_edges ∨ s.edges.length = e0)

/-- The bound every expansion state satisfies, running or stopped. -/
def expBound {T U E : Type} (st : GenerateSettings) (n0 e0 : Nat)
    (s : ExpState T U E) : Prop :=
  s.nodes.length ≤ max st.max_nodes (n0 + 1) ∧
  s.edges.length ≤ max st.max_edges (e0 + 1)

/-- The index-validity invariant of an expansion state: every recorded edge
and every index stored in the dedup map is in range of the node list. -/
def expValid {T U E : Type} (s : ExpState T U E) : Prop :=
  validEdges s.nodes.length s.edges ∧
  ∀ x k, s.has x = some k → k < s.nodes.length

end GraphBuilder

namespace GraphBuilder

/-- An index lookup that returns a value exhibits membership. -/
theorem mem_of_idx {α : Type} {l : List α} {i : Nat} {a : α}
    (h : l[i]? = some a) : a ∈ l :=
  List.mem_iff_getElem?.mpr ⟨i, h⟩

/-- Setting an index to the value it already holds is the identity. -/
theorem set_idx_self {α : Type} :
    ∀ (l : List α) (j : Nat) (x : α), l[j]? = some x → l.set j x = l := by
  intro l
  induction l with
  | nil => intro j x h; simp at h
  | cons y t ih =>
    intro j x h
    cases j with
    | zero => simp at h; simp [List.set, h]
    | succ j => simp at h; simp [List.set, ih j x h]

/-- Dropping up to a freshly set index exposes the new value in front of the
old tail. -/
theorem drop_set_cons {α : Type} :
    ∀ (l : List α) (j : Nat) (v : α), j < l.length →
      (l.set j v).drop j = v :: l.drop (j + 1) := by
  intro l
  induction l with
  | nil => intro j v h; simp at h
  | cons y t ih =>
    intro j v h
    cases j with
    | zero => simp [List.set]
    | succ j =>
      simp only [List.length_cons, Nat.succ_lt_succ_iff] at h
      simp [List.set, List.drop, ih j v h]

/-- Unfolding lemma for `swapRemove` when the last element is known. -/
theorem swapRemove_eq {α : Type} (l : List α) (i : Nat) (x : α)
    (h : l.getLast? = some x) : swapRemove l i = (l.set i x).dropLast := by
  rw [swapRemove, h]

/-- Unfolding `swapRemove` on a nonempty list with two or more elements and a
successor index steps inside the tail. -/
theorem swapRemove_cons_succ {α : Type} (x : α) (t : List α) (j : Nat)
    (ht : t ≠ []) : swapRemove (x :: t) (j + 1) = x :: swapRemove t j := by
  have hxt : (x :: t) ≠ ([] : List α) := by simp
  rw [swapRemove_eq (x :: t) (j + 1) ((x :: t).getLast hxt)
      (List.getLast?_eq_getLast (x :: t) hxt), List.getLast_cons ht]
  rw [swapRemove_eq t j (t.getLast ht) (List.getLast?_eq_getLast t ht)]
  have hset : (x :: t).set (j + 1) (t.getLast ht) = x :: t.set j (t.getLast ht) := rfl
  rw [hset, List.dropLast_cons_of_ne_nil]
  intro hc
  have hlen := congrArg List.length hc
  rw [List.length_set] at hlen
  exact ht (List.eq_nil_of_length_eq_zero hlen)

/-- `swapRemove` on a singleton empties the list, at any index. -/
theorem swapRemove_singleton {α : Type} (x : α) (j : Nat) :
    swapRemove [x] j = [] := by
  rw [swapRemove_eq [x] j x rfl]
  cases j with
  | zero => rfl
  | succ j => rfl

/-- Every element of `swapRemove l j` past position `j` already occurred in
`l` past position `j`. -/
theorem swapRemove_drop_mem {α : Type} :
    ∀ (j : Nat) (l : List α) (e : α),
      e ∈ (swapRemove l j).drop j → e ∈ l.drop (j + 1) := by
  intro j
  induction j with
  | zero =>
    intro l e he
    match l with
    | [] => simp [swapRemove] at he
    | [x] => rw [swapRemove_singleton] at he; simp at he
    | x :: y :: t =>
      have hyt : (y :: t) ≠ ([] : List α) := by simp
      have hg : (x :: y :: t).getLast? = some ((y :: t).getLast hyt) := by
        rw [List.getLast?_eq_getLast (x :: y :: t) (by simp), List.getLast_cons hyt]
      rw [swapRemove_eq (x :: y :: t) 0 ((y :: t).getLast hyt) hg] at he
      have hset : (x :: y :: t).set 0 ((y :: t).getLast hyt) =
          (y :: t).getLast hyt :: y :: t := rfl
      rw [hset, List.dropLast_cons_of_ne_nil hyt] at he
      simp only [List.drop_zero] at he ⊢
      rcases List.mem_cons.mp he with h | h
      · exact h ▸ List.getLast_mem hyt
      · exact (List.dropLast_sublist (y :: t)).mem h
  | succ j ih =>
    intro l e he
    match l with
    | [] => simp [swapRemove] at he
    | x :: t =>
      by_cases ht : t = []
      · subst ht
        rw [swapRemove_singleton] at he
        simp at he
      · rw [swapRemove_cons_succ x t j ht] at he
        simp only [List.drop_succ_cons] at he ⊢
        exact ih t e he

/-- Every element of `swapRemove l j` was an element of `l`. -/
theorem swapRemove_subset {α : Type} (l : List α) (j : Nat) :
    ∀ e ∈ swapRemove l j, e ∈ l := by
  intro e he
  cases hg : l.getLast? with
  | none => rw [swapRemove, hg] at he; exact he
  | some x =>
    rw [swapRemove_eq l j x hg] at he
    have hne : l ≠ [] := by intro hn; rw [hn] at hg; simp at hg
    have hx : x ∈ l := by
      rw [List.getLast?_eq_getLast l hne] at hg
      injection hg with hg2
      exact hg2 ▸ List.getLast_mem hne
    rcases List.mem_or_eq_of_mem_set ((List.dropLast_sublist _).mem he) with h | h
    · exact h
    · exact h ▸ hx

/-- C1: for the seed with nodes [A, B, C] and edges A→B (label 1), B→C
(label 2), with n = 0, a filter removing exactly B and a composer adding
labels (so compose 1 2 = Ok 3), `gen` returns exactly nodes [A, C] and the
single edge 0→1 with label 3, with no reference to B. -/
theorem c1_composition_scenario :
    gen (([10, 20, 30] : List Nat), ([((0, 1), 1), ((1, 2), 2)] : List (Edge Nat))) 0
      (fun _ _ => Except.error 0) (fun x => decide (x ≠ 20))
      (fun x y => Except.ok (x + y)) ⟨100, 100⟩ (fun _ => 0) =
      Except.ok ([10, 30], [((0, 1), 3)]) := by
  rfl

/-- C3 evaluation at a failing input: the seed loop of `gen` inserts every
seed node into the dedup map with index 0 (lib.rs line 123), so when `expand`
returns a node structurally equal to seed node 20 — which occupies index 1 —
the appended edge targets index 0, not index 1.  The run below produces the
edges [(0,0), (1,0)] where the claimed bijection would require
[(0,1), (1,1)]. -/
theorem c3_seed_dedup_bug_eval :
    gen (([10, 20] : List Nat), ([] : List (Edge Nat))) 1
      (fun _ _ => Except.ok (20, 0)) (fun _ => true) (fun x _ => Except.ok x)
      ⟨100, 100⟩ (fun _ => 0) =
      Except.ok ([10, 20], [((0, 0), 0), ((1, 0), 0)]) := by
  rfl

/-- C4 counterexample: with a seed of 2 nodes, max_nodes = 1 and n = 0, no
ceiling check ever runs (they only run after a successful expansion), so
`gen` returns a graph whose node count 2 exceeds max_nodes = 1 — and even
returns it as Ok. -/
theorem c4_ceiling_counterexample :
    gen (([10, 20] : List Nat), ([] : List (Edge Nat))) 0
      (fun _ _ => Except.error 0) (fun _ => true) (fun x _ => Except.ok x)
      ⟨1, 1⟩ (fun _ => 0) = Except.ok ([10, 20], []) ∧
      ¬ (([10, 20] : List Nat).length ≤ 1) := by
  exact ⟨rfl, by decide⟩

/-- C5 evaluation at a failing input: on an `expand` failure the Rust code
runs `error = Some(err)` with no `is_none` guard (lib.rs line 156), so a
second expand failure overwrites the first.  With expand failing at step j
with error j, the reported error is 1 (the last), not 0 (the first that the
claim and the crate documentation promise). -/
theorem c5_last_error_wins_eval :
    gen (([10] : List Nat), ([] : List (Edge Nat))) 2
      (fun _ j => Except.error j) (fun _ => true) (fun _ _ => Except.error none)
      ⟨100, 100⟩ (fun _ => 99) = Except.error (([10], []), 1) := by
  rfl

/-- C6 evaluation at a failing input: for the two one-directional edges
(0,1) and (2,3) — within the at-most-two-per-pair precondition — the scan of
`bidir` deletes the wrong slot in its unequal branch (lib.rs line 251), so
the edge ((2,3),1) survives although no opposite-orientation counterpart
(3,2) was present in the input, contrary to the claimed postcondition and to
the function's own documentation. -/
theorem c6_unpaired_edge_survives_eval :
    bidir ([((0, 1), 0), ((2, 3), 1)] : List (Edge Nat)) = [((2, 3), 1)] := by
  rfl

/-- C7 evaluation: the paired example behaves as claimed, but a single edge
with no reverse counterpart is returned unchanged instead of being dropped:
the `k >= edges.len()` branch of the scan (lib.rs line 245) that would drop a
trailing unpaired edge is unreachable, because `pair` is only true one step
after it was set while the length did not change. -/
theorem c7_trailing_edge_kept_eval :
    bidir ([((0, 1), 7), ((1, 0), 7)] : List (Edge Nat)) = [((0, 1), 7)] ∧
      bidir ([((0, 1), 7)] : List (Edge Nat)) = [((0, 1), 7)] := by
  exact ⟨rfl, rfl⟩

/-- C8 counterexample: a fully paired four-edge input satisfying the
precondition on which `bidir` is not idempotent — the first pass collapses
each pair to a single copy, and the second pass then treats those single
copies as unpaired and drops one of them. -/
theorem c8_idempotence_counterexample :
    atMostTwoPerPair ([((0, 1), 0), ((0, 1), 0), ((2, 3), 0), ((2, 3), 0)] : List (Edge Nat)) ∧
      bidir (bidir ([((0, 1), 0), ((0, 1), 0), ((2, 3), 0), ((2, 3), 0)] : List (Edge Nat))) ≠
        bidir ([((0, 1), 0), ((0, 1), 0), ((2, 3), 0), ((2, 3), 0)] : List (Edge Nat)) := by
  exact ⟨by decide, by decide⟩

/-- A failed-lookup-joined table entry exhibits membership of the entry. -/
theorem mem_of_idx_bind {mp : List (Option Nat)} {i k : Nat}
    (h : (mp[i]?).bind id = some k) : (some k) ∈ mp := by
  rcases Option.bind_eq_some.mp h with ⟨c, hc, hid⟩
  have : c = some k := hid
  exact this ▸ mem_of_idx hc

/-- An index that is kept stays kept when the node list is extended on the
right. -/
theorem keptAt_append {T : Type} (g : T → Bool) (acc l2 : List T) (k : Nat)
    (h : keptAt g acc k) : keptAt g (acc ++ l2) k := by
  rcases h with ⟨v, hv, hgv⟩
  rcases List.getElem?_eq_some_iff.mp hv with ⟨hlt, _⟩
  refine ⟨v, ?_, hgv⟩
  rw [List.getElem?_append, if_pos hlt]
  exact hv

/-- Soundness of the compaction renumbering: every index stored in the
`map_nodes` table names a node of the new node list that passes the filter. -/
theorem buildMapGo_kept {T : Type} (g : T → Bool) :
    ∀ (xs acc : List T) (mp : List (Option Nat)),
      (∀ k : Nat, (some k) ∈ mp → keptAt g acc k) →
      ∀ k : Nat, (some k) ∈ (buildMapGo g xs acc mp).2 →
        keptAt g (buildMapGo g xs acc mp).1 k := by
  intro xs
  induction xs with
  | nil =>
    intro acc mp hmp k hk
    exact hmp k hk
  | cons x xs ih =>
    intro acc mp hmp k hk
    by_cases hx : g x = true
    · rw [show buildMapGo g (x :: xs) acc mp =
          buildMapGo g xs (acc ++ [x]) (mp ++ [some acc.length]) by
        simp [buildMapGo, hx]] at hk ⊢
      refine ih (acc ++ [x]) (mp ++ [some acc.length]) ?_ k hk
      intro k2 hk2
      rcases List.mem_append.mp hk2 with hm | hm
      · exact keptAt_append g acc [x] k2 (hmp k2 hm)
      · have hk2e : k2 = acc.length := by
          simp at hm
          omega
        subst hk2e
        exact ⟨x, List.getElem?_concat_length acc x, hx⟩
    · rw [show buildMapGo g (x :: xs) acc mp = buildMapGo g xs acc (mp ++ [none]) by
        simp [buildMapGo, hx]] at hk ⊢
      refine ih acc (mp ++ [none]) ?_ k hk
      intro k2 hk2
      rcases List.mem_append.mp hk2 with hm | hm
      · exact hmp k2 hm
      · simp at hm
      
/-- Stability of the compaction edge walk: if every edge at or past the
cursor has both endpoints present in the renumbering table, then so does
every edge of the final list.  Edges below the cursor are each either
rewritten into such an edge, replaced by an already-processed edge via
`swapRemove`, or removed. -/
theorem compactEdges_mem {U : Type} (mp : List (Option Nat)) :
    ∀ (j : Nat) (es : List (Edge U)),
      (∀ e ∈ es.drop j, (some e.1.1) ∈ mp ∧ (some e.1.2) ∈ mp) →
      ∀ e ∈ compactEdges mp j es, (some e.1.1) ∈ mp ∧ (some e.1.2) ∈ mp := by
  intro j
  induction j with
  | zero =>
    intro es hq e he
    exact hq e (by simpa using he)
  | succ j ih =>
    intro es hq e he
    cases hj : es[j]? with
    | none =>
      rw [show compactEdges mp (j + 1) es = compactEdges mp j es by
        simp [compactEdges, hj]] at he
      refine ih es ?_ e he
      intro e2 he2
      have hlen : es.length ≤ j := by
        by_contra hlt
        push_neg at hlt
        rw [List.getElem?_eq_getElem hlt] at hj
        cases hj
      rw [List.drop_eq_nil_of_le hlen] at he2
      cases he2
    | some e0 =>
      have hjlt : j < es.length := (List.getElem?_eq_some_iff.mp hj).1
      have hq1 : ∀ e2 ∈ es.drop (j + 1), (some e2.1.1) ∈ mp ∧ (some e2.1.2) ∈ mp := hq
      have hswap : ∀ e2 ∈ compactEdges mp j (swapRemove es j),
          (some e2.1.1) ∈ mp ∧ (some e2.1.2) ∈ mp := by
        refine ih (swapRemove es j) ?_
        intro e2 he2
        exact hq1 e2 (swapRemove_drop_mem j es e2 he2)
      have hset : ∀ a2 b2 : Nat, (mp[e0.1.1]?).bind id = some a2 →
          (mp[e0.1.2]?).bind id = some b2 →
          ∀ e2 ∈ compactEdges mp j (es.set j ((a2, b2), e0.2)),
            (some e2.1.1) ∈ mp ∧ (some e2.1.2) ∈ mp := by
        intro a2 b2 hma hmb
        refine ih (es.set j ((a2, b2), e0.2)) ?_
        intro e2 he2
        rw [drop_set_cons es j ((a2, b2), e0.2) hjlt] at he2
        rcases List.mem_cons.mp he2 with hm | hm
        · subst hm
          exact ⟨mem_of_idx_bind hma, mem_of_idx_bind hmb⟩
        · exact hq1 e2 hm
      rw [show compactEdges mp (j + 1) es =
          (match (mp[e0.1.1]?).bind id, (mp[e0.1.2]?).bind id with
           | some a2, some b2 => compactEdges mp j (es.set j ((a2, b2), e0.2))
           | _, _ => compactEdges mp j (swapRemove es j)) by
        simp [compactEdges, hj]] at he
      cases hma : (mp[e0.1.1]?).bind id with
      | none =>
        rw [hma] at he
        exact hswap e he
      | some a2 =>
        cases hmb : (mp[e0.1.2]?).bind id with
        | none =>
          rw [hma, hmb] at he
          exact hswap e he
        | some b2 =>
          rw [hma, hmb] at he
          exact hset a2 b2 hma hmb e he

/-- C2: for every call to gen, every edge of the graph it returns — the same
graph in the Ok and the Err case, the first component of `genPhases` — has
both endpoints naming nodes of the returned node sequence on which the keep
filter holds; no edge references a removed node. -/
theorem c2_filter_closure {T U E : Type} [DecidableEq T]
    (a : Graph T U) (n : Nat) (f : T → Nat → Except E (T × U)) (g : T → Bool)
    (h : U → U → Except (Option E) U) (st : GenerateSettings)
    (fromGE : GenerateError → E) :
    ∀ e ∈ (genPhases a n f g h st fromGE).1.2,
      keptAt g (genPhases a n f g h st fromGE).1.1 e.1.1 ∧
      keptAt g (genPhases a n f g h st fromGE).1.1 e.1.2 := by
  intro e he
  simp only [genPhases] at he ⊢
  have hQ := compactEdges_mem
    (buildMapGo g (genExpandPhase a n f st fromGE).nodes [] []).2
    (genComposePhase a n f g h st fromGE).edges.length
    (genComposePhase a n f g h st fromGE).edges
    (by
      intro e2 he2
      rw [List.drop_length] at he2
      cases he2) e he
  have hkept := buildMapGo_kept g (genExpandPhase a n f st fromGE).nodes [] []
    (by intro k hk; cases hk)
  exact ⟨hkept e.1.1 hQ.1, hkept e.1.2 hQ.2⟩

/-- Witness for C2 at a concrete input. -/
theorem c2_filter_closure_witness :
    ((0, 0), 3) ∈ (genPhases (([7] : List Nat), ([((0, 0), 3)] : List (Edge Nat))) 0
        (fun _ _ => Except.error 0) (fun _ => true) (fun x _ => Except.ok x)
        ⟨9, 9⟩ (fun _ => 0)).1.2 ∧
      (keptAt (fun _ => true)
          (genPhases (([7] : List Nat), ([((0, 0), 3)] : List (Edge Nat))) 0
            (fun _ _ => Except.error 0) (fun _ => true) (fun x _ => Except.ok x)
            ⟨9, 9⟩ (fun _ => 0)).1.1 0 ∧
        keptAt (fun _ => true)
          (genPhases (([7] : List Nat), ([((0, 0), 3)] : List (Edge Nat))) 0
            (fun _ _ => Except.error 0) (fun _ => true) (fun x _ => Except.ok x)
            ⟨9, 9⟩ (fun _ => 0)).1.1 0) := by
  refine ⟨by decide, ?_⟩
  exact c2_filter_closure (([7] : List Nat), ([((0, 0), 3)] : List (Edge Nat))) 0
    (fun _ _ => Except.error 0) (fun _ => true) (fun x _ => Except.ok x)
    ⟨9, 9⟩ (fun _ => 0) ((0, 0), 3) (by decide)

/-- A running expansion state within the invariant also satisfies the bound. -/
theorem expInvariant_to_bound {T U E : Type} (st : GenerateSettings) (n0 e0 : Nat)
    (s : ExpState T U E) (h : expInvariant st n0 e0 s) : expBound st n0 e0 s := by
  obtain ⟨h1, h2⟩ := h
  constructor
  · rcases h1 with h1 | h1 <;> omega
  · rcases h2 with h2 | h2 <;> omega

/-- The dedup step grows the node list by at most one element. -/
theorem expandInsert_length {T U E : Type} [DecidableEq T] (s : ExpState T U E)
    (nn : T) :
    (expandInsert s nn).2.1.length = s.nodes.length ∨
      (expandInsert s nn).2.1.length = s.nodes.length + 1 := by
  unfold expandInsert
  cases s.has nn with
  | some id => left; rfl
  | none => right; simp

/-- A successful expansion step preserves the ceiling invariant when it does
not break, and in every case leaves a state within the ceiling bound. -/
theorem expandOkStep_inv {T U E : Type} [DecidableEq T] (st : GenerateSettings)
    (fromGE : GenerateError → E) (i : Nat) (s : ExpState T U E) (nn : T) (ne : U)
    (n0 e0 : Nat) (hInv : expInvariant st n0 e0 s) :
    ((expandOkStep st fromGE i s nn ne).2 = false →
      expInvariant st n0 e0 (expandOkStep st fromGE i s nn ne).1) ∧
    expBound st n0 e0 (expandOkStep st fromGE i s nn ne).1 := by
  obtain ⟨h1, h2⟩ := hInv
  have hlen := expandInsert_length s nn
  unfold expandOkStep
  simp only [expInvariant, expBound]
  split
  next hc1 =>
    constructor
    · intro hf; simp at hf
    · constructor
      · simp only []
        rcases hlen with hl | hl <;> rw [hl] <;> rcases h1 with h | h <;> omega
      · simp only [List.length_append, List.length_cons, List.length_nil]
        rcases h2 with h | h <;> omega
  next hc1 =>
    split
    next hc2 =>
      constructor
      · intro hf; simp at hf
      · constructor
        · simp only []; omega
        · simp only [List.length_append, List.length_cons, List.length_nil]
          rcases h2 with h | h <;> omega
    next hc2 =>
      constructor
      · intro _
        constructor
        · simp only []; omega
        · simp only [List.length_append, List.length_cons, List.length_nil] at hc2 ⊢
          omega
      · constructor
        · simp only []; omega
        · simp only [List.length_append, List.length_cons, List.length_nil] at hc2 ⊢
          omega

/-- The inner step loop preserves the ceiling invariant when it does not
break, and always ends within the ceiling bound. -/
theorem expandSteps_inv {T U E : Type} [DecidableEq T]
    (f : T → Nat → Except E (T × U)) (st : GenerateSettings)
    (fromGE : GenerateError → E) (i : Nat) (n0 e0 : Nat) :
    ∀ (js : List Nat) (s : ExpState T U E), expInvariant st n0 e0 s →
      ((expandSteps f st fromGE i js s).2 = false →
        expInvariant st n0 e0 (expandSteps f st fromGE i js s).1) ∧
      expBound st n0 e0 (expandSteps f st fromGE i js s).1 := by
  intro js
  induction js with
  | nil =>
    intro s hInv
    exact ⟨fun _ => hInv, expInvariant_to_bound st n0 e0 s hInv⟩
  | cons j js ih =>
    intro s hInv
    cases hni : s.nodes[i]? with
    | none =>
      simp only [expandSteps, hni]
      exact ⟨fun _ => hInv, expInvariant_to_bound st n0 e0 s hInv⟩
    | some node =>
      cases hfj : f node j with
      | error err =>
        simp only [expandSteps, hni, hfj]
        exact ih ⟨s.nodes, s.edges, some err, s.has, s.hasEdge⟩ hInv
      | ok nn =>
        have hok := expandOkStep_inv st fromGE i s nn.1 nn.2 n0 e0 hInv
        cases hr2 : (expandOkStep st fromGE i s nn.1 nn.2).2 with
        | true =>
          simp only [expandSteps, hni, hfj, hr2, if_pos]
          refine ⟨?_, hok.2⟩
          intro hf
          simp at hf
        | false =>
          simp only [expandSteps, hni, hfj, hr2, if_neg]
          exact ih (expandOkStep st fromGE i s nn.1 nn.2).1 (hok.1 hr2)

/-- The expansion worklist loop always ends within the ceiling bound. -/
theorem expandLoop_bound {T U E : Type} [DecidableEq T]
    (f : T → Nat → Except E (T × U)) (n : Nat) (st : GenerateSettings)
    (fromGE : GenerateError → E) (n0 e0 : Nat) :
    ∀ (fuel i : Nat) (s : ExpState T U E), expInvariant st n0 e0 s →
      expBound st n0 e0 (expandLoop f n st fromGE fuel i s) := by
  intro fuel
  induction fuel with
  | zero =>
    intro i s hInv
    exact expInvariant_to_bound st n0 e0 s hInv
  | succ fuel ih =>
    intro i s hInv
    have hst := expandSteps_inv f st fromGE i n0 e0 (List.range n) s hInv
    by_cases hi : i < s.nodes.length
    · have heq : expandLoop f n st fromGE (fuel + 1) i s =
          if (expandSteps f st fromGE i (List.range n) s).2 = true
          then (expandSteps f st fromGE i (List.range n) s).1
          else expandLoop f n st fromGE fuel (i + 1)
            (expandSteps f st fromGE i (List.range n) s).1 := by
        simp [expandLoop, hi]
      rw [heq]
      split
      · exact hst.2
      · next hr => exact ih (i + 1) _ (hst.1 (by simpa using hr))
    · simp only [expandLoop, if_neg hi]
      exact expInvariant_to_bound st n0 e0 s hInv

/-- The compaction keeps at most as many nodes as it is given. -/
theorem buildMapGo_fst_length {T : Type} (g : T → Bool) :
    ∀ (xs acc : List T) (mp : List (Option Nat)),
      (buildMapGo g xs acc mp).1.length ≤ acc.length + xs.length := by
  intro xs
  induction xs with
  | nil => intro acc mp; simp [buildMapGo]
  | cons x xs ih =>
    intro acc mp
    by_cases hx : g x = true
    · rw [show buildMapGo g (x :: xs) acc mp =
          buildMapGo g xs (acc ++ [x]) (mp ++ [some acc.length]) by
        simp [buildMapGo, hx]]
      have := ih (acc ++ [x]) (mp ++ [some acc.length])
      simp only [List.length_append, List.length_cons, List.length_nil] at this ⊢
      omega
    · rw [show buildMapGo g (x :: xs) acc mp = buildMapGo g xs acc (mp ++ [none]) by
        simp [buildMapGo, hx]]
      have := ih acc (mp ++ [none])
      simp only [List.length_cons] at this ⊢
      omega

/-- C4 (amended): the node count of the graph returned by gen never exceeds
`max max_nodes (seed node count + 1)` — in particular it never exceeds
`max_nodes` when the seed is strictly below the ceiling — and the edge count
at the end of the expansion phase never exceeds
`max max_edges (seed edge count + 1)`.  The `+ 1` slack and the restriction
of the edge bound to the expansion phase are forced by the code: ceilings are
only checked after a successful expansion (an oversized seed passes through
untouched, see the counterexample), and the composition phase appends edges
without any ceiling check. -/
theorem c4_ceilings_amended {T U E : Type} [DecidableEq T]
    (a : Graph T U) (n : Nat) (f : T → Nat → Except E (T × U)) (g : T → Bool)
    (h : U → U → Except (Option E) U) (st : GenerateSettings)
    (fromGE : GenerateError → E) :
    (genPhases a n f g h st fromGE).1.1.length ≤ max st.max_nodes (a.1.length + 1) ∧
    (genExpandPhase a n f st fromGE).edges.length ≤ max st.max_edges (a.2.length + 1) := by
  have hInit : expInvariant st a.1.length a.2.length
      (initExpState a : ExpState T U E) := by
    constructor
    · right; rfl
    · right; rfl
  have hb := expandLoop_bound f n st fromGE a.1.length a.2.length
    (a.1.length + st.max_nodes + 1) 0 (initExpState a) hInit
  constructor
  · simp only [genPhases]
    have hbm := buildMapGo_fst_length g (genExpandPhase a n f st fromGE).nodes
      ([] : List T) ([] : List (Option Nat))
    simp only [List.length_nil] at hbm
    have hnb : (genExpandPhase a n f st fromGE).nodes.length ≤
        max st.max_nodes (a.1.length + 1) := hb.1
    omega
  · exact hb.2

/-- Edge validity is monotone in the node-count bound. -/
theorem validEdges_mono {U : Type} {L L2 : Nat} {es : List (Edge U)}
    (h : validEdges L es) (hle : L ≤ L2) : validEdges L2 es := by
  intro e he
  exact ⟨lt_of_lt_of_le (h e he).1 hle, lt_of_lt_of_le (h e he).2 hle⟩

/-- The fields of the state after a successful expansion step do not depend
on which ceiling branch was taken. -/
theorem expandOkStep_fields {T U E : Type} [DecidableEq T] (st : GenerateSettings)
    (fromGE : GenerateError → E) (i : Nat) (s : ExpState T U E) (nn : T) (ne : U) :
    (expandOkStep st fromGE i s nn ne).1.nodes = (expandInsert s nn).2.1 ∧
    (expandOkStep st fromGE i s nn ne).1.edges =
      s.edges ++ [((i, (expandInsert s nn).1), ne)] ∧
    (expandOkStep st fromGE i s nn ne).1.has = (expandInsert s nn).2.2 := by
  unfold expandOkStep
  dsimp only
  split
  · exact ⟨rfl, rfl, rfl⟩
  · split
    · exact ⟨rfl, rfl, rfl⟩
    · exact ⟨rfl, rfl, rfl⟩

/-- The dedup step extends the node list, returns an index in range of the
extended list, and keeps the dedup map within range. -/
theorem expandInsert_valid {T U E : Type} [DecidableEq T] (s : ExpState T U E)
    (nn : T) (hhas : ∀ x k, s.has x = some k → k < s.nodes.length) :
    s.nodes.length ≤ (expandInsert s nn).2.1.length ∧
    (expandInsert s nn).1 < (expandInsert s nn).2.1.length ∧
    (∀ x k, (expandInsert s nn).2.2 x = some k →
      k < (expandInsert s nn).2.1.length) := by
  unfold expandInsert
  cases hh : s.has nn with
  | some id => exact ⟨le_refl _, hhas nn id hh, hhas⟩
  | none =>
    refine ⟨by simp, by simp, ?_⟩
    intro x k hxk
    simp only [] at hxk
    by_cases hx : x = nn
    · rw [if_pos hx] at hxk
      injection hxk with hk
      simp [← hk]
    · rw [if_neg hx] at hxk
      have := hhas x k hxk
      simp only [List.length_append, List.length_cons, List.length_nil]
      omega

/-- A successful expansion step preserves index validity and can only grow
the node list. -/
theorem expandOkStep_valid {T U E : Type} [DecidableEq T] (st : GenerateSettings)
    (fromGE : GenerateError → E) (i : Nat) (s : ExpState T U E) (nn : T) (ne : U)
    (hi : i < s.nodes.length) (hv : expValid s) :
    expValid (expandOkStep st fromGE i s nn ne).1 ∧
      s.nodes.length ≤ (expandOkStep st fromGE i s nn ne).1.nodes.length := by
  obtain ⟨hfn, hfe, hfh⟩ := expandOkStep_fields st fromGE i s nn ne
  obtain ⟨hve, hvh⟩ := hv
  obtain ⟨hle, hid, hhas2⟩ := expandInsert_valid s nn hvh
  refine ⟨⟨?_, ?_⟩, ?_⟩
  · rw [hfn, hfe]
    intro e he
    rcases List.mem_append.mp he with hm | hm
    · exact ⟨lt_of_lt_of_le (hve e hm).1 hle, lt_of_lt_of_le (hve e hm).2 hle⟩
    · have hm2 : e = ((i, (expandInsert s nn).1), ne) := by simpa using hm
      subst hm2
      exact ⟨lt_of_lt_of_le hi hle, hid⟩
  · rw [hfn, hfh]
    exact hhas2
  · rw [hfn]
    exact hle

/-- The inner step loop preserves index validity and can only grow the node
list. -/
theorem expandSteps_valid {T U E : Type} [DecidableEq T]
    (f : T → Nat → Except E (T × U)) (st : GenerateSettings)
    (fromGE : GenerateError → E) (i : Nat) :
    ∀ (js : List Nat) (s : ExpState T U E), i < s.nodes.length → expValid s →
      expValid (expandSteps f st fromGE i js s).1 ∧
        s.nodes.length ≤ (expandSteps f st fromGE i js s).1.nodes.length := by
  intro js
  induction js with
  | nil => intro s _ hv; exact ⟨hv, le_refl _⟩
  | cons j js ih =>
    intro s hi hv
    cases hni : s.nodes[i]? with
    | none =>
      simp only [expandSteps, hni]
      exact ⟨hv, le_refl _⟩
    | some node =>
      cases hfj : f node j with
      | error err =>
        simp only [expandSteps, hni, hfj]
        exact ih ⟨s.nodes, s.edges, some err, s.has, s.hasEdge⟩ hi hv
      | ok nn =>
        have hok := expandOkStep_valid st fromGE i s nn.1 nn.2 hi hv
        cases hr2 : (expandOkStep st fromGE i s nn.1 nn.2).2 with
        | true =>
          simp only [expandSteps, hni, hfj, hr2, if_pos]
          exact hok
        | false =>
          simp only [expandSteps, hni, hfj, hr2, if_neg]
          have hih := ih (expandOkStep st fromGE i s nn.1 nn.2).1
            (lt_of_lt_of_le hi hok.2) hok.1
          exact ⟨hih.1, le_trans hok.2 hih.2⟩

/-- The expansion worklist loop preserves index validity. -/
theorem expandLoop_valid {T U E : Type} [DecidableEq T]
    (f : T → Nat → Except E (T × U)) (n : Nat) (st : GenerateSettings)
    (fromGE : GenerateError → E) :
    ∀ (fuel i : Nat) (s : ExpState T U E), expValid s →
      expValid (expandLoop f n st fromGE fuel i s) := by
  intro fuel
  induction fuel with
  | zero => intro i s hv; exact hv
  | succ fuel ih =>
    intro i s hv
    by_cases hi : i < s.nodes.length
    · have hst := expandSteps_valid f st fromGE i (List.range n) s hi hv
      have heq : expandLoop f n st fromGE (fuel + 1) i s =
          if (expandSteps f st fromGE i (List.range n) s).2 = true
          then (expandSteps f st fromGE i (List.range n) s).1
          else expandLoop f n st fromGE fuel (i + 1)
            (expandSteps f st fromGE i (List.range n) s).1 := by
        simp [expandLoop, hi]
      rw [heq]
      split
      · exact hst.1
      · exact ih (i + 1) _ hst.1
    · simp only [expandLoop, if_neg hi]
      exact hv

/-- The composition inner scan preserves edge validity: a composed edge
`(a, d)` takes `a` from the edge being replaced and `d` from a snapshot
edge, both in range. -/
theorem composeScan_valid {U E : Type} (h : U → U → Except (Option E) U)
    (a b : Nat) (labJ : U) (L : Nat) (ha : a < L) :
    ∀ (rest : List (Edge U)) (s : CompState U E),
      validEdges L s.edges → (∀ e ∈ rest, e.1.2 < L) →
      validEdges L (composeScan h a b labJ rest s).edges := by
  intro rest
  induction rest with
  | nil => intro s hv _; exact hv
  | cons e rest ih =>
    intro s hv hsnap
    have hrest : ∀ e2 ∈ rest, e2.1.2 < L := fun e2 he2 => hsnap e2 (by simp [he2])
    by_cases hc : e.1.1 = b ∧ s.hasEdge (a, e.1.2) = false
    · rw [show composeScan h a b labJ (e :: rest) s =
          (match h labJ e.2 with
           | Except.ok newLab =>
             composeScan h a b labJ rest
               ⟨s.edges ++ [((a, e.1.2), newLab)],
                fun q => if q = (a, e.1.2) then true else s.hasEdge q, s.error⟩
           | Except.error none => composeScan h a b labJ rest s
           | Except.error (some err) =>
             composeScan h a b labJ rest ⟨s.edges, s.hasEdge, some (s.error.getD err)⟩) by
        simp [composeScan, hc]]
      cases hh : h labJ e.2 with
      | ok newLab =>
        refine ih _ ?_ hrest
        intro e2 he2
        rcases List.mem_append.mp he2 with hm | hm
        · exact hv e2 hm
        · have hm2 : e2 = ((a, e.1.2), newLab) := by simpa using hm
          subst hm2
          exact ⟨ha, hsnap e (by simp)⟩
      | error oe =>
        cases oe with
        | none => exact ih s hv hrest
        | some err => exact ih ⟨s.edges, s.hasEdge, some (s.error.getD err)⟩ hv hrest
    · rw [show composeScan h a b labJ (e :: rest) s = composeScan h a b labJ rest s by
        simp [composeScan, hc]]
      exact ih s hv hrest

/-- The composition outer loop preserves edge validity. -/
theorem composeLoop_valid {U E : Type} (h : U → U → Except (Option E) U)
    (removed : Nat → Bool) (snap : List (Edge U)) (L : Nat)
    (hsnap : ∀ e ∈ snap, e.1.2 < L) :
    ∀ (fuel j : Nat) (s : CompState U E), validEdges L s.edges →
      validEdges L (composeLoop h removed snap fuel j s).edges := by
  intro fuel
  induction fuel with
  | zero => intro j s hv; exact hv
  | succ fuel ih =>
    intro j s hv
    cases hj : s.edges[j]? with
    | none =>
      simp only [composeLoop, hj]
      exact hv
    | some e =>
      simp only [composeLoop, hj]
      refine ih (j + 1) _ ?_
      by_cases hr : removed e.1.2 = true
      · rw [if_pos hr]
        exact composeScan_valid h e.1.1 e.1.2 e.2 L
          (hv e (mem_of_idx hj)).1 snap s hv hsnap
      · rw [if_neg hr]
        exact hv

/-- The renumbering table has exactly one entry per node. -/
theorem buildMapGo_snd_length {T : Type} (g : T → Bool) :
    ∀ (xs acc : List T) (mp : List (Option Nat)),
      (buildMapGo g xs acc mp).2.length = mp.length + xs.length := by
  intro xs
  induction xs with
  | nil => intro acc mp; simp [buildMapGo]
  | cons x xs ih =>
    intro acc mp
    by_cases hx : g x = true
    · rw [show buildMapGo g (x :: xs) acc mp =
          buildMapGo g xs (acc ++ [x]) (mp ++ [some acc.length]) by
        simp [buildMapGo, hx]]
      rw [ih]
      simp only [List.length_append, List.length_cons, List.length_nil]
      omega
    · rw [show buildMapGo g (x :: xs) acc mp = buildMapGo g xs acc (mp ++ [none]) by
        simp [buildMapGo, hx]]
      rw [ih]
      simp only [List.length_append, List.length_cons, List.length_nil]
      omega

/-- C10: when the seed edges reference only valid indices into the seed node
sequence, every edge present after the expansion phase and after the
composition phase has both endpoints below the node-sequence length, and the
`map_nodes` table built by compaction covers every node index — so every
vector access `gen` performs (`edges[j]`, `edges[k]`, `map_nodes[a]`,
`map_nodes[b]`) is in bounds and the embedding is total on such inputs. -/
theorem c10_index_safety {T U E : Type} [DecidableEq T]
    (a : Graph T U) (n : Nat) (f : T → Nat → Except E (T × U)) (g : T → Bool)
    (h : U → U → Except (Option E) U) (st : GenerateSettings)
    (fromGE : GenerateError → E) (hv : validEdges a.1.length a.2) :
    validEdges (genExpandPhase a n f st fromGE).nodes.length
      (genExpandPhase a n f st fromGE).edges ∧
    validEdges (genExpandPhase a n f st fromGE).nodes.length
      (genComposePhase a n f g h st fromGE).edges ∧
    (buildMapGo g (genExpandPhase a n f st fromGE).nodes [] []).2.length =
      (genExpandPhase a n f st fromGE).nodes.length := by
  have hinit : expValid (initExpState a : ExpState T U E) := by
    constructor
    · exact hv
    · intro x k hxk
      simp only [initExpState] at hxk
      by_cases hx : x ∈ a.1
      · rw [if_pos hx] at hxk
        injection hxk with hk
        have hpos : 0 < a.1.length := List.length_pos.mpr (by
          intro hnil
          rw [hnil] at hx
          cases hx)
        show k < a.1.length
        omega
      · rw [if_neg hx] at hxk
        cases hxk
  have hexp : expValid (genExpandPhase a n f st fromGE : ExpState T U E) :=
    expandLoop_valid f n st fromGE (a.1.length + st.max_nodes + 1) 0
      (initExpState a) hinit
  refine ⟨hexp.1, ?_, ?_⟩
  · have hsnap : ∀ e ∈ (genExpandPhase a n f st fromGE : ExpState T U E).edges,
        e.1.2 < (genExpandPhase a n f st fromGE).nodes.length :=
      fun e he => (hexp.1 e he).2
    exact composeLoop_valid h
      (removedPred g (genExpandPhase a n f st fromGE).nodes)
      (genExpandPhase a n f st fromGE).edges
      (genExpandPhase a n f st fromGE).nodes.length hsnap _ 0
      ⟨(genExpandPhase a n f st fromGE).edges,
       (genExpandPhase a n f st fromGE).hasEdge,
       (genExpandPhase a n f st fromGE).error⟩ hexp.1
  · rw [buildMapGo_snd_length]
    simp

/-- Witness for C10 at a concrete input. -/
theorem c10_index_safety_witness :
    validEdges (([4, 5] : List Nat)).length ([((0, 1), 2)] : List (Edge Nat)) ∧
      (validEdges (genExpandPhase (([4, 5] : List Nat), ([((0, 1), 2)] : List (Edge Nat)))
            0 (fun _ _ => Except.error 0) ⟨9, 9⟩ (fun _ => 0)).nodes.length
          (genExpandPhase (([4, 5] : List Nat), ([((0, 1), 2)] : List (Edge Nat)))
            0 (fun _ _ => Except.error 0) ⟨9, 9⟩ (fun _ => 0)).edges ∧
        validEdges (genExpandPhase (([4, 5] : List Nat), ([((0, 1), 2)] : List (Edge Nat)))
            0 (fun _ _ => Except.error 0) ⟨9, 9⟩ (fun _ => 0)).nodes.length
          (genComposePhase (([4, 5] : List Nat), ([((0, 1), 2)] : List (Edge Nat)))
            0 (fun _ _ => Except.error 0) (fun _ => true) (fun x _ => Except.ok x)
            ⟨9, 9⟩ (fun _ => 0)).edges ∧
        (buildMapGo (fun _ => true)
            (genExpandPhase (([4, 5] : List Nat), ([((0, 1), 2)] : List (Edge Nat)))
              0 (fun _ _ => Except.error 0) ⟨9, 9⟩ (fun _ => 0)).nodes [] []).2.length =
          (genExpandPhase (([4, 5] : List Nat), ([((0, 1), 2)] : List (Edge Nat)))
            0 (fun _ _ => Except.error 0) ⟨9, 9⟩ (fun _ => 0)).nodes.length) := by
  refine ⟨by decide, ?_⟩
  exact c10_index_safety (([4, 5] : List Nat), ([((0, 1), 2)] : List (Edge Nat))) 0
    (fun _ _ => Except.error 0) (fun _ => true) (fun x _ => Except.ok x)
    ⟨9, 9⟩ (fun _ => 0) (by decide)

/-- With n = 0 the expansion loop is a no-op: the inner step list is empty,
so every pass leaves the state untouched until the worklist is exhausted. -/
theorem expandLoop_zero {T U E : Type} [DecidableEq T]
    (f : T → Nat → Except E (T × U)) (st : GenerateSettings)
    (fromGE : GenerateError → E) :
    ∀ (fuel i : Nat) (s : ExpState T U E), expandLoop f 0 st fromGE fuel i s = s := by
  intro fuel
  induction fuel with
  | zero => intro i s; rfl
  | succ fuel ih =>
    intro i s
    by_cases hi : i < s.nodes.length
    · have hsteps : expandSteps f st fromGE i ([] : List Nat) s = (s, false) := rfl
      simp [expandLoop, hi, List.range_zero, hsteps, ih (i + 1) s]
    · simp [expandLoop, hi]

/-- When no node index is removed, the composition loop leaves its state
untouched. -/
theorem composeLoop_id {U E : Type} (h : U → U → Except (Option E) U)
    (removed : Nat → Bool) (snap : List (Edge U))
    (hrem : ∀ b, removed b = false) :
    ∀ (fuel j : Nat) (s : CompState U E), composeLoop h removed snap fuel j s = s := by
  intro fuel
  induction fuel with
  | zero => intro j s; rfl
  | succ fuel ih =>
    intro j s
    cases hj : s.edges[j]? with
    | none => simp [composeLoop, hj]
    | some e =>
      rw [show composeLoop h removed snap (fuel + 1) j s =
          composeLoop h removed snap fuel (j + 1) s by
        simp [composeLoop, hj, hrem e.1.2]]
      exact ih (j + 1) s

/-- When the filter keeps every node of the list, no index is removed. -/
theorem removedPred_false {T : Type} (g : T → Bool) (ns : List T)
    (hg : ∀ x ∈ ns, g x = true) : ∀ i, removedPred g ns i = false := by
  intro i
  unfold removedPred
  cases hni : ns[i]? with
  | none => rfl
  | some x => simp [hg x (mem_of_idx hni)]

/-- When the filter keeps every node, compaction renumbering returns the
nodes unchanged and the identity table. -/
theorem buildMapGo_all_kept {T : Type} (g : T → Bool) :
    ∀ (xs acc : List T) (mp : List (Option Nat)), (∀ x ∈ xs, g x = true) →
      buildMapGo g xs acc mp =
        (acc ++ xs, mp ++ (List.range xs.length).map (fun k => some (acc.length + k))) := by
  intro xs
  induction xs with
  | nil => intro acc mp _; simp [buildMapGo]
  | cons x xs ih =>
    intro acc mp hg
    have hx : g x = true := hg x (by simp)
    rw [show buildMapGo g (x :: xs) acc mp =
        buildMapGo g xs (acc ++ [x]) (mp ++ [some acc.length]) by
      simp [buildMapGo, hx]]
    rw [ih (acc ++ [x]) (mp ++ [some acc.length]) (fun y hy => hg y (by simp [hy]))]
    have hfun : ((fun k => some (acc.length + k)) ∘ Nat.succ) =
        (fun k => some ((acc ++ [x]).length + k)) := by
      funext k
      simp only [Function.comp_apply]
      congr 1
      simp only [List.length_append, List.length_cons, List.length_nil]
      omega
    rw [List.length_cons, List.range_succ_eq_map, List.map_cons, List.map_map, hfun]
    simp [List.append_assoc]

/-- The identity renumbering table maps every index below `L` to itself. -/
theorem range_map_some_idx (L i : Nat) (hi : i < L) :
    ((List.range L).map (fun k => some (0 + k)))[i]? = some (some i) := by
  rw [List.getElem?_map, List.getElem?_range hi]
  simp

/-- When the renumbering table is the identity on all valid indices and all
edges are valid, the compaction edge walk rewrites every edge to itself. -/
theorem compactEdges_id {U : Type} (mp : List (Option Nat)) (L : Nat)
    (hmp : ∀ i, i < L → mp[i]? = some (some i)) :
    ∀ (j : Nat) (es : List (Edge U)), validEdges L es →
      compactEdges mp j es = es := by
  intro j
  induction j with
  | zero => intro es _; rfl
  | succ j ih =>
    intro es hv
    cases hj : es[j]? with
    | none =>
      rw [show compactEdges mp (j + 1) es = compactEdges mp j es by
        simp [compactEdges, hj]]
      exact ih es hv
    | some e =>
      obtain ⟨ha, hb⟩ := hv e (mem_of_idx hj)
      have hba : (mp[e.1.1]?).bind id = some e.1.1 := by rw [hmp e.1.1 ha]; rfl
      have hbb : (mp[e.1.2]?).bind id = some e.1.2 := by rw [hmp e.1.2 hb]; rfl
      rw [show compactEdges mp (j + 1) es =
          compactEdges mp j (es.set j ((e.1.1, e.1.2), e.2)) by
        simp only [compactEdges, hj]
        rw [hba, hbb]]
      rw [show ((e.1.1, e.1.2), e.2) = e from rfl]
      rw [set_idx_self es j e hj]
      exact ih es hv

/-- C9: with n = 0 the expansion phase changes nothing, and if additionally
the keep filter accepts every seed node (and the seed edges are valid, which
the contract assumes — on an invalid seed the Rust code panics), `gen`
returns Ok of the seed graph unchanged: same node sequence, same edge
sequence, same order, no error. -/
theorem c9_n_zero_identity {T U E : Type} [DecidableEq T]
    (ns : List T) (es : List (Edge U)) (f : T → Nat → Except E (T × U))
    (g : T → Bool) (h : U → U → Except (Option E) U) (st : GenerateSettings)
    (fromGE : GenerateError → E)
    (hg : ∀ x ∈ ns, g x = true) (hv : validEdges ns.length es) :
    gen (ns, es) 0 f g h st fromGE = Except.ok (ns, es) := by
  have hexp : genExpandPhase (ns, es) 0 f st fromGE =
      (initExpState (ns, es) : ExpState T U E) :=
    expandLoop_zero f st fromGE _ 0 _
  have hcomp : genComposePhase (ns, es) 0 f g h st fromGE =
      (⟨es, fun q => es.any fun e => decide (e.1 = q), none⟩ : CompState U E) := by
    simp only [genComposePhase, hexp]
    exact composeLoop_id h _ _ (removedPred_false g ns hg) _ 0 _
  have hbm : buildMapGo g ns ([] : List T) ([] : List (Option Nat)) =
      (ns, (List.range ns.length).map (fun k => some (0 + k))) := by
    rw [buildMapGo_all_kept g ns [] [] hg]
    simp
  have hP : genPhases (ns, es) 0 f g h st fromGE = ((ns, es), (none : Option E)) := by
    simp only [genPhases, hexp, hcomp, hbm]
    rw [show (initExpState (ns, es) : ExpState T U E).nodes = ns from rfl] at *
    rw [hbm]
    refine congrArg (fun z => ((ns, z), (none : Option E))) ?_
    exact compactEdges_id _ ns.length
      (fun i hi => range_map_some_idx ns.length i hi) es.length es hv
  simp only [gen, hP]

/-- Witness for C9 at a concrete input. -/
theorem c9_n_zero_identity_witness :
    (∀ x ∈ ([5, 6] : List Nat), (fun (_ : Nat) => true) x = true) ∧
      validEdges ([5, 6] : List Nat).length ([((0, 1), 2)] : List (Edge Nat)) ∧
      gen (([5, 6] : List Nat), ([((0, 1), 2)] : List (Edge Nat))) 0
        (fun _ _ => Except.error 0) (fun _ => true) (fun x _ => Except.ok x)
        ⟨9, 9⟩ (fun _ => 0) = Except.ok ([5, 6], [((0, 1), 2)]) := by
  refine ⟨by decide, by decide, ?_⟩
  exact c9_n_zero_identity [5, 6] [((0, 1), 2)] (fun _ _ => Except.error 0)
    (fun _ => true) (fun x _ => Except.ok x) ⟨9, 9⟩ (fun _ => 0)
    (by decide) (by decide)

/-- Insertion produces no new elements. -/
theorem insertKey_mem {U : Type} (a : Edge U) :
    ∀ (l : List (Edge U)) (x : Edge U), x ∈ insertKey a l → x = a ∨ x ∈ l := by
  intro l
  induction l with
  | nil =>
    intro x hx
    simp [insertKey] at hx
    exact Or.inl hx
  | cons y ys ih =>
    intro x hx
    by_cases hle : edgeKeyLe a y = true
    · rw [show insertKey a (y :: ys) = a :: y :: ys by simp [insertKey, hle]] at hx
      rcases List.mem_cons.mp hx with hx | hx
      · exact Or.inl hx
      · exact Or.inr hx
    · rw [show insertKey a (y :: ys) = y :: insertKey a ys by simp [insertKey, hle]] at hx
      rcases List.mem_cons.mp hx with hx | hx
      · exact Or.inr (hx ▸ List.mem_cons_self y ys)
      · rcases ih x hx with hx2 | hx2
        · exact Or.inl hx2
        · exact Or.inr (List.mem_cons_of_mem y hx2)

/-- Sorting produces no new elements. -/
theorem sortByKey_mem {U : Type} :
    ∀ (l : List (Edge U)) (x : Edge U), x ∈ sortByKey l → x ∈ l := by
  intro l
  induction l with
  | nil => intro x hx; exact hx
  | cons y ys ih =>
    intro x hx
    rw [show sortByKey (y :: ys) = insertKey y (sortByKey ys) from rfl] at hx
    rcases insertKey_mem y (sortByKey ys) x hx with hx2 | hx2
    · exact hx2 ▸ List.mem_cons_self y ys
    · exact List.mem_cons_of_mem y (ih x hx2)

/-- The pairing scan produces no new elements. -/
theorem bidirScan_subset {U : Type} [DecidableEq U] :
    ∀ (j : Nat) (p : Bool) (l : List (Edge U)) (x : Edge U),
      x ∈ bidirScan j p l → x ∈ l := by
  intro j
  induction j with
  | zero => intro p l x hx; exact hx
  | succ j ih =>
    intro p l x hx
    cases p with
    | false =>
      rw [show bidirScan (j + 1) false l = bidirScan j true l by
        simp [bidirScan]] at hx
      exact ih true l x hx
    | true =>
      by_cases hlen : l.length ≤ j + 1
      · rw [show bidirScan (j + 1) true l = bidirScan j true (swapRemove l j) by
          simp [bidirScan, hlen]] at hx
        exact swapRemove_subset l j x (ih true _ x hx)
      · cases hj1 : l[j]? with
        | none =>
          have hlt : j < l.length := by omega
          rw [List.getElem?_eq_getElem hlt] at hj1
          cases hj1
        | some ej =>
          cases hj2 : l[j + 1]? with
          | none =>
            have hlt : j + 1 < l.length := by omega
            rw [List.getElem?_eq_getElem hlt] at hj2
            cases hj2
          | some ek =>
            by_cases heq : ej = ek
            · rw [show bidirScan (j + 1) true l =
                  bidirScan j false (swapRemove l (j + 1)) by
                simp [bidirScan, hlen, hj1, hj2, heq]] at hx
              exact swapRemove_subset l (j + 1) x (ih false _ x hx)
            · rw [show bidirScan (j + 1) true l =
                  bidirScan j false (swapRemove l j) by
                simp [bidirScan, hlen, hj1, hj2, heq]] at hx
              exact swapRemove_subset l j x (ih false _ x hx)

/-- An edge whose endpoint pair is already ordered is fixed by
canonicalization. -/
theorem canonEdge_id_of_le {U : Type} (e : Edge U) (hle : e.1.1 ≤ e.1.2) :
    canonEdge e = e := by
  obtain ⟨⟨a, b⟩, u⟩ := e
  simp only [canonEdge, canonKey] at hle ⊢
  rw [min_eq_left hle, max_eq_right hle]

/-- Canonicalization is idempotent. -/
theorem canonEdge_idem {U : Type} (e : Edge U) :
    canonEdge (canonEdge e) = canonEdge e := by
  refine canonEdge_id_of_le (canonEdge e) ?_
  obtain ⟨⟨a, b⟩, u⟩ := e
  simp only [canonEdge, canonKey]
  exact min_le_max

/-- `bidir` of the empty list is the empty list. -/
theorem bidir_nil {U : Type} [DecidableEq U] : bidir ([] : List (Edge U)) = [] := rfl

/-- `bidir` keeps a single already-canonical edge unchanged: the scan sets
the pair flag on it and then runs out of slots, never reaching the dead
branch that would drop it. -/
theorem bidir_one {U : Type} [DecidableEq U] (e : Edge U)
    (hc : canonEdge e = e) : bidir [e] = [e] := by
  have h1 : ([e] : List (Edge U)).map canonEdge = [e] := by simp [hc]
  have h0 : ¬ ([e] : List (Edge U)).length = 0 := by simp
  rw [show bidir [e] = bidirScan (sortByKey (([e] : List (Edge U)).map canonEdge)).length
      false (sortByKey (([e] : List (Edge U)).map canonEdge)) by
    simp only [bidir, if_neg h0]]
  rw [h1]
  rfl

/-- C8 (amended): `bidir` is idempotent on inputs whose output has at most
one edge (the empty output, and a singleton output, which is necessarily
canonical and is returned unchanged by a second pass).  In general a second
application is not the identity: the first pass collapses each matched pair
to a single copy, which the second pass then treats as unpaired — see the
counterexample. -/
theorem c8_idempotent_amended {U : Type} [DecidableEq U] (es : List (Edge U))
    (hpre : atMostTwoPerPair es) (hsmall : (bidir es).length ≤ 1) :
    bidir (bidir es) = bidir es := by
  cases hB : bidir es with
  | nil => rw [bidir_nil]
  | cons e tl =>
    have htl : tl = [] := by
      rw [hB] at hsmall
      simp only [List.length_cons] at hsmall
      exact List.eq_nil_of_length_eq_zero (by omega)
    subst htl
    have hmem : e ∈ bidir es := by rw [hB]; simp
    have hcanonlist : e ∈ es.map canonEdge := by
      by_cases hz : es.length = 0
      · have hnil : es = [] := List.eq_nil_of_length_eq_zero hz
        rw [hnil, bidir_nil] at hB
        cases hB
      · rw [show bidir es = bidirScan (sortByKey (es.map canonEdge)).length false
            (sortByKey (es.map canonEdge)) by simp only [bidir, if_neg hz]] at hmem
        exact sortByKey_mem _ _ (bidirScan_subset _ _ _ _ hmem)
    obtain ⟨e0, _, hc⟩ := List.mem_map.mp hcanonlist
    have hcanon : canonEdge e = e := by
      rw [← hc]
      exact canonEdge_idem e0
    exact bidir_one e hcanon

/-- Witness for C8 (amended) at a concrete input. -/
theorem c8_idempotent_amended_witness :
    atMostTwoPerPair ([((0, 1), 0), ((1, 0), 0)] : List (Edge Nat)) ∧
      (bidir ([((0, 1), 0), ((1, 0), 0)] : List (Edge Nat))).length ≤ 1 ∧
      bidir (bidir ([((0, 1), 0), ((1, 0), 0)] : List (Edge Nat))) =
        bidir ([((0, 1), 0), ((1, 0), 0)] : List (Edge Nat)) := by
  refine ⟨by decide, by decide, ?_⟩
  exact c8_idempotent_amended [((0, 1), 0), ((1, 0), 0)] (by decide) (by decide)

end GraphBuilder
